import Mathlib

/-!
Shallow embedding of the funpy front end (src/lexer.rs, src/token.rs,
src/parser.rs, src/ast.rs) and proofs about it.  Source strings are
modelled as lists of characters with byte positions computed from UTF-8
sizes, mirroring the byte arithmetic of the Rust lexer.
-/

namespace Funpy

/-- Byte length of one character in UTF-8, mirroring Rust `char::len_utf8`. -/
def utf8Len (c : Char) : Nat := c.utf8Size

/-- Byte length of a character sequence, mirroring Rust `str::len`. -/
def strBytes (cs : List Char) : Nat := (cs.map utf8Len).sum

/-- Rust `char::is_numeric` is a Unicode predicate; on the ASCII range it
holds exactly for the digits 0-9.  This development models source text over
that range, so the predicate is embedded as `Char.isDigit`. -/
def rustIsNumeric (c : Char) : Bool := c.isDigit

/-- Rust `char::is_alphabetic`, modelled on the ASCII range (see
`rustIsNumeric`). -/
def rustIsAlphabetic (c : Char) : Bool := c.isAlpha

/-- Rust `char::is_alphanumeric`, modelled on the ASCII range (see
`rustIsNumeric`). -/
def rustIsAlphanumeric (c : Char) : Bool := c.isAlphanum

/-- The tokens the lexer can emit (src/token.rs, `enum Token`); variants the
lexer of src/lexer.rs never produces (keywords, `Eq`, `Newline`, ...) are
omitted from the embedding.  String payloads are kept as character lists. -/
inductive Token where
  | IntLiteral (n : Int)
  | StrLiteral (s : List Char)
  | Ident (s : List Char)
  | LParen
  | RParen
  | Add
  | Sub
  | Mul
  | Div
  | AddEq
  | SubEq
  | MulEq
  | DivEq
  | Bang
  | BangEq
  deriving DecidableEq

/-- Lexical errors (src/lexer.rs, `enum LexErr`). -/
inductive LexErr where
  | UnknownToken (ix : Nat) (ed : Option Nat)
  | UnterminatedString (ix : Nat)
  deriving DecidableEq

/-- The lexer state (src/lexer.rs, `struct Lexer`): the full source, the
remaining suffix, and the current byte position. -/
structure LexerState where
  src : List Char
  rest : List Char
  byte : Nat
  deriving DecidableEq

/-- Outcome of one call to `Lexer::next`.  `eof` models `None`, `ok` models
`Some(Ok((offset, token)))`, `err` models `Some(Err(e))` (each carrying the
mutated lexer state), and `panics` models a Rust panic: the numeric branch
of src/lexer.rs line 108 calls `.expect("Should have checked")` on
`str::parse::<i32>`, which aborts when the parse fails. -/
inductive NextResult where
  | eof (st : LexerState)
  | ok (c_at : Nat) (t : Token) (st : LexerState)
  | err (e : LexErr) (st : LexerState)
  | panics
  deriving DecidableEq

/-- The leading-space loop of `Lexer::next` (src/lexer.rs lines 67-72): skip
U+0020 characters only, advancing the byte position and the remaining
suffix past each one. -/
def skipSpaces (src : List Char) (rest : List Char) (b : Nat) : LexerState :=
  match rest with
  | c :: cs =>
    if c = ' ' then skipSpaces src cs (b + utf8Len c)
    else ⟨src, c :: cs, b⟩
  | [] => ⟨src, [], b⟩

/-- The `self.rest.starts_with('=')` test of the `Started::IfEqualElse`
branch of `Lexer::next` (src/lexer.rs line 141). -/
def startsWithEq : List Char → Bool
  | c2 :: _ => c2 = '='
  | [] => false

/-- The `Started::IfEqualElse` branch of `Lexer::next` (src/lexer.rs lines
140-149): when the remaining input starts with an equals sign, consume that
one byte (`self.rest = &self.rest[1..]`) and emit the compound token,
otherwise emit the bare token without consuming anything further. -/
def ifEqualElse (src : List Char) (c_at byte1 : Nat) (rest1 : List Char)
    (no yes : Token) : NextResult :=
  if startsWithEq rest1 then
    .ok c_at yes ⟨src, rest1.drop 1, byte1 + utf8Len '='⟩
  else .ok c_at no ⟨src, rest1, byte1⟩

/-- Unsigned decimal value of a digit string. -/
def digitsVal (cs : List Char) : Nat :=
  cs.foldl (fun a c => a * 10 + (c.toNat - 48)) 0

/-- Rust `str::parse::<i32>` (that is, `i32::from_str`): an optional sign
followed by one or more decimal digits.  It rejects the empty string, any
non-digit character after the optional sign (in particular underscores),
and values outside the `i32` range. -/
def parseI32 (cs : List Char) : Option Int :=
  match cs with
  | [] => none
  | '-' :: ds =>
    if ds ≠ [] ∧ ds.all Char.isDigit = true ∧ digitsVal ds ≤ 2147483648 then
      some (-(digitsVal ds : Int))
    else none
  | '+' :: ds =>
    if ds ≠ [] ∧ ds.all Char.isDigit = true ∧ digitsVal ds ≤ 2147483647 then
      some (digitsVal ds)
    else none
  | ds =>
    if ds.all Char.isDigit = true ∧ digitsVal ds ≤ 2147483647 then
      some (digitsVal ds)
    else none

/-- Byte index of the first occurrence of a character, mirroring the calls
to Rust `str::find` in src/lexer.rs; on the character-list model it returns
the character index, and byte offsets are recovered with `strBytes`. -/
def findChar (target : Char) : List Char → Option Nat
  | [] => none
  | c :: cs => if c = target then some 0 else (findChar target cs).map (fun i => i + 1)

/-- The classification the `match c` of `Lexer::next` performs (src/lexer.rs
lines 78-93): the source's `enum Started`, extended with the cases that
return directly from that match (`Immediate` for the parentheses, `Unknown`
for the unknown-token error). -/
inductive Started where
  | Immediate (t : Token)
  | IfEqualElse (no yes : Token)
  | Str
  | Numeric
  | Ident
  | Unknown
  deriving DecidableEq

/-- The `match c` of `Lexer::next` (src/lexer.rs lines 78-93). -/
def classify (c : Char) : Started :=
  if c = '(' then .Immediate .LParen
  else if c = ')' then .Immediate .RParen
  else if c = '+' then .IfEqualElse .Add .AddEq
  else if c = '-' then .IfEqualElse .Sub .SubEq
  else if c = '*' then .IfEqualElse .Mul .MulEq
  else if c = '/' then .IfEqualElse .Div .DivEq
  else if c = '!' then .IfEqualElse .Bang .BangEq
  else if c = '"' then .Str
  else if c.isDigit then .Numeric
  else if rustIsAlphabetic c then .Ident
  else .Unknown

/-- The dispatch of `Lexer::next` on the first non-space character `c` at
byte offset `c_at`, with `cs` the characters after `c` (src/lexer.rs lines
73-151).  The state fields mirror the source exactly: `self.byte` was
already advanced past `c` and `self.rest` past its bytes before the match
on `c`, and each multi-character branch then adds the extra bytes it
consumes (`n_bytes`, the span length minus `c.len_utf8()`). -/
def dispatch (src : List Char) (c_at : Nat) (c : Char) (cs : List Char) :
    NextResult :=
  let c_rest := c :: cs
  let byte1 := c_at + utf8Len c
  match classify c with
  | .Immediate t => .ok c_at t ⟨src, cs, byte1⟩
  | .IfEqualElse no yes => ifEqualElse src c_at byte1 cs no yes
  | .Str =>
    match findChar '"' cs with
    | some i =>
      let full_str := c :: cs.take (i + 1)
      let n_bytes := strBytes full_str - utf8Len c
      .ok c_at (.StrLiteral (cs.take i)) ⟨src, cs.drop (i + 1), byte1 + n_bytes⟩
    | none => .err (.UnterminatedString c_at) ⟨src, cs, byte1⟩
  | .Numeric =>
    let numeric_token := c_rest.takeWhile (fun ch => rustIsNumeric ch || ch == '_')
    let n_bytes := strBytes numeric_token - utf8Len c
    match parseI32 numeric_token with
    | some n =>
      .ok c_at (.IntLiteral n)
        ⟨src, cs.drop (numeric_token.length - 1), byte1 + n_bytes⟩
    | none => .panics
  | .Ident =>
    let ident := c_rest.takeWhile (fun ch => ch == '_' || rustIsAlphanumeric ch)
    let n_bytes := strBytes ident - utf8Len c
    .ok c_at (.Ident ident) ⟨src, cs.drop (ident.length - 1), byte1 + n_bytes⟩
  | .Unknown => .err (.UnknownToken c_at none) ⟨src, cs, byte1⟩

/-- One call to `Lexer::next` (src/lexer.rs lines 61-152): skip spaces,
return `eof` when the remaining input is exhausted, otherwise dispatch on
the first remaining character. -/
def next (st : LexerState) : NextResult :=
  match skipSpaces st.src st.rest st.byte with
  | ⟨src, [], b⟩ => .eof ⟨src, [], b⟩
  | ⟨src, c :: cs, b⟩ => dispatch src b c cs

/-- The constructor `Lexer::new` (src/lexer.rs lines 49-55). -/
def Lexer.new (src : List Char) : LexerState := ⟨src, src, 0⟩

/-- Run the lexer to completion, collecting the spanned tokens in order;
`none` when any step errors or panics (or the fuel runs out). -/
def runLex : Nat → LexerState → Option (List (Nat × Token) × LexerState)
  | 0, _ => none
  | fuel + 1, st =>
    match next st with
    | .eof st1 => some ([], st1)
    | .ok c_at t st1 =>
      match runLex fuel st1 with
      | some (toks, stf) => some ((c_at, t) :: toks, stf)
      | none => none
    | .err _ _ => none
    | .panics => none

/-- Canonical rendering of lexer tokens (src/token.rs, `impl Display for
Token`), restricted to the variants the lexer emits. -/
def Token.display : Token → String
  | .IntLiteral n => toString n
  | .StrLiteral s => String.mk s
  | .Ident s => String.mk s
  | .LParen => "("
  | .RParen => ")"
  | .Add => "+"
  | .Sub => "-"
  | .Mul => "*"
  | .Div => "/"
  | .AddEq => "+="
  | .SubEq => "-="
  | .MulEq => "*="
  | .DivEq => "/="
  | .Bang => "!"
  | .BangEq => "!="

/-- Token model seen by src/parser.rs: that file dispatches on `tok.ttype`
(a `TokenType`) and hands whole tokens to the AST constructors of
src/ast.rs, which read the payloads (`Token::Int` carries the literal text
there, and `Identifier::new` receives the token although it is declared to
take a `String`).  The embedding merges those views into one inductive
whose constructor head is the `TokenType`; `Other` stands for the token
kinds that only ever reach the parser's catch-all arm. -/
inductive PToken where
  | Int (s : String)
  | Identifier (s : String)
  | Add
  | Sub
  | Mul
  | Div
  | LParen
  | RParen
  | Assignment
  | Other
  deriving DecidableEq

/-- Canonical text of an operator token as rendered by the `Display`
implementation in src/token.rs (used by `BinaryExpr::repr` through
`format!("({} {} {})", ..)`); literal tokens display their payload. -/
def PToken.display : PToken → String
  | .Add => "+"
  | .Sub => "-"
  | .Mul => "*"
  | .Div => "/"
  | .Int s => s
  | .Identifier s => s
  | _ => ""

/-- src/parser.rs `enum Precedence`, compared below by declaration order
exactly as Rust's derived `Ord` compares it. -/
inductive Precedence where
  | Lowest
  | AddSub
  | MulDiv
  | EqNotEq
  deriving DecidableEq

/-- Position of a precedence level in the declaration order. -/
def Precedence.toNat : Precedence → Nat
  | .Lowest => 0
  | .AddSub => 1
  | .MulDiv => 2
  | .EqNotEq => 3

/-- The derived strict comparison `<` on `Precedence`. -/
def Precedence.ltb (a b : Precedence) : Bool := a.toNat < b.toNat

/-- src/parser.rs `enum ParseError`.  src/ast.rs constructs
`InvalidTypeData` with a message payload, but the declaration in
src/parser.rs — the one this embedding follows — carries none. -/
inductive ParseError where
  | InvalidTypeData
  | NotImplementedToken (s : String)
  | ReachedEnd
  deriving DecidableEq

/-! The AST of src/ast.rs.  Each Rust struct implementing `Node` becomes a
variant; `BlockStmt` is also a field type of `ConditionalStmt` and
`FnLiteral`, so it is a mutual inductive wrapped into the `Block` variant.
`Identifier` payloads are their literal strings. -/
mutual
inductive Node where
  | IntegerNode (value : Int)
  | BinaryExpr (op : PToken) (l : Node) (r : Node)
  | Identifier (literal : String)
  | CallStmt (name : String) (args : List Node)
  | ConditionalStmt (conditional : Node) (pass_block : BlockStmt)
      (fail_block : Option BlockStmt)
  | ReturnStmt (expr : Node)
  | AssignmentStmt (identifier : String) (expr : Node)
  | Block (b : BlockStmt)
  | FnLiteral (name : String) (args : List String) (definition : BlockStmt)
inductive BlockStmt where
  | mk (indent : Nat) (statements : List Node)
end

/-- The `indent` field of a block (src/ast.rs `struct BlockStmt`). -/
def BlockStmt.indentOf : BlockStmt → Nat
  | .mk i _ => i

/-- Rust `str::repeat`: `repeatStr s n` is `s` repeated `n` times. -/
def repeatStr (s : String) (n : Nat) : String :=
  String.join (List.replicate n s)

/-! The `repr` methods of src/ast.rs, one arm per `Node` implementation.
Rendering returns `Option String`: `none` models the Rust panic in
`ConditionalStmt::repr` (src/ast.rs line 161), where a present fail-block
with `indent` 0 makes `self.fail_block.unwrap().indent - 1` underflow on a
`usize`; every other arm is a pure format.  `BlockStmt::repr` prefixes each
statement with `"    ".repeat(indent)` and joins with newlines. -/
mutual
def Node.repr : Node → Option String
  | .IntegerNode v => some (toString v)
  | .BinaryExpr op l r => do
      let ls ← Node.repr l
      let rs ← Node.repr r
      pure ("(" ++ ls ++ " " ++ op.display ++ " " ++ rs ++ ")")
  | .Identifier lit => some lit
  | .CallStmt name args => do
      let rs ← reprList args
      pure (name ++ "(" ++ String.intercalate ", " rs ++ ")")
  | .ConditionalStmt cond pass fb => do
      let else_ ← match fb with
        | none => pure ""
        | some f => do
            let spaces ← if f.indentOf = 0 then none
              else pure (repeatStr "    " (f.indentOf - 1))
            let fr ← BlockStmt.repr f
            pure (spaces ++ "else:\n" ++ fr)
      let cr ← Node.repr cond
      let pr ← BlockStmt.repr pass
      pure ("if (" ++ cr ++ "):\n" ++ pr ++ "\n" ++ else_)
  | .ReturnStmt e => do
      let er ← Node.repr e
      pure ("return " ++ er)
  | .AssignmentStmt idf e => do
      let er ← Node.repr e
      pure (idf ++ " = " ++ er)
  | .Block b => BlockStmt.repr b
  | .FnLiteral name args defn => do
      let dr ← BlockStmt.repr defn
      pure ("def " ++ name ++ "(" ++ String.intercalate ", " args ++ "):\n" ++ dr)

def BlockStmt.repr : BlockStmt → Option String
  | .mk indent stmts => do
      let rs ← reprList stmts
      pure (String.intercalate "\n" (rs.map (fun r => repeatStr "    " indent ++ r)))

def reprList : List Node → Option (List String)
  | [] => some []
  | n :: ns => do
      let r ← Node.repr n
      let rs ← reprList ns
      pure (r :: rs)
end

/-- The `eval` methods of src/ast.rs: every implementation of `Node::eval`
is `return Box::new(self)`, one such implementation per variant. -/
def Node.eval : Node → Node
  | .IntegerNode v => .IntegerNode v
  | .BinaryExpr op l r => .BinaryExpr op l r
  | .Identifier lit => .Identifier lit
  | .CallStmt name args => .CallStmt name args
  | .ConditionalStmt c p f => .ConditionalStmt c p f
  | .ReturnStmt e => .ReturnStmt e
  | .AssignmentStmt i e => .AssignmentStmt i e
  | .Block b => .Block b
  | .FnLiteral n a d => .FnLiteral n a d

/-- `IntegerNode::new` (src/ast.rs lines 27-42): expects an integer token
and parses its literal text as an `i32`, failing with `InvalidTypeData`
otherwise. -/
def IntegerNode.new (t : PToken) : Except ParseError Node :=
  match t with
  | .Int s =>
    match parseI32 s.data with
    | some v => .ok (.IntegerNode v)
    | none => .error .InvalidTypeData
  | _ => .error .InvalidTypeData

/-- Parser state (src/parser.rs `struct Parser`): the token vector, its
length, and the trailing (`l`) and leading (`r`) cursors. -/
structure PState where
  tokens : List PToken
  n_tokens : Nat
  l : Nat
  r : Nat
  deriving DecidableEq

/-- Outcome of a parser operation: a value with the mutated parser state, a
`ParseError`, a Rust panic (out-of-bounds `Vec` indexing), or exhausted
recursion fuel. -/
inductive PRes (α : Type) where
  | ok (a : α) (s : PState)
  | err (e : ParseError)
  | panics
  | outOfFuel
  deriving DecidableEq

/-- `Parser::new` (src/parser.rs lines 30-37). -/
def Parser.new (tokens : List PToken) : PState :=
  ⟨tokens, tokens.length, 0, 0⟩

/-- `Parser::step` (src/parser.rs lines 38-41): collapse both cursors one
past the current leading cursor. -/
def Parser.step (s : PState) : PState :=
  { s with r := s.r + 1, l := s.r + 1 }

/-- `Parser::incr_leading` (src/parser.rs lines 42-49): fails with
`ReachedEnd` when the leading cursor already equals the token count. -/
def Parser.incr_leading (s : PState) : Except ParseError PState :=
  if s.r = s.n_tokens then .error .ReachedEnd
  else .ok { s with r := s.r + 1 }

/-- `Parser::incr_trailing` (src/parser.rs lines 51-53). -/
def Parser.incr_trailing (s : PState) : PState :=
  { s with l := s.l + 1 }

/-- The loop at the head of `Parser::get_operand_node` (src/parser.rs lines
125-129), advancing the trailing cursor past opening parentheses; the
structural fuel `n_tokens - l` bounds the loop exactly as its own guard
`l < n_tokens` does. -/
def skipLParensGo : Nat → PState → PState
  | 0, s => s
  | k + 1, s =>
    if s.tokens.get? s.l = some .LParen then
      skipLParensGo k (Parser.incr_trailing s)
    else s

/-- The fully applied parenthesis-skipping loop of
`Parser::get_operand_node`. -/
def skipLParens (s : PState) : PState :=
  skipLParensGo (s.n_tokens - s.l) s

/-- `Parser::get_operand_node` (src/parser.rs lines 124-142): skip opening
parentheses at the trailing cursor, then classify the token there.  The
source then indexes `self.tokens[self.l]` without a bounds check, so a
trailing cursor at or past the vector length is a panic, not a
`ParseError`. -/
def get_operand_node (s : PState) : PRes Node :=
  let s := skipLParens s
  match s.tokens.get? s.l with
  | none => .panics
  | some t =>
    match t with
    | .Int _ =>
      match IntegerNode.new t with
      | .ok nd => .ok nd s
      | .error e => .err e
    | .Identifier str => .ok (.Identifier str) s
    | _ => .err .InvalidTypeData

/-- `Parser::get_precedence` (src/parser.rs lines 116-122). -/
def get_precedence (t : PToken) : Precedence :=
  match t with
  | .Add | .Sub => .AddSub
  | .Mul | .Div => .MulDiv
  | _ => .Lowest

/-- `Parser::get_binary_node` (src/parser.rs lines 144-151). -/
def get_binary_node (op : PToken) (l r : Node) : Except ParseError Node :=
  .ok (.BinaryExpr op l r)

/-- The literal the assignment branch of `Parser::parse` hands to
`Identifier::new` from the token at the trailing cursor (the source passes
the whole token where a `String` is declared; the embedding takes its
payload). -/
def identLiteral : PToken → String
  | .Int s => s
  | .Identifier s => s
  | _ => ""

/-- `Parser::parse` (src/parser.rs lines 55-114) with explicit recursion
fuel: `parseGo fuel prec node s` is the `while self.r < self.n_tokens` loop
carrying the `node` local.  Both the loop step and the recursive
`self.parse(..)` calls consume one unit of fuel, so every terminating run
of the source is reproduced by a large enough fuel. -/
def parseGo : Nat → Precedence → Option Node → PState → PRes Node
  | 0, _, _, _ => .outOfFuel
  | fuel + 1, prec, node, s =>
    if s.r < s.n_tokens then
      match s.tokens.get? s.r with
      | none => .panics
      | some tok =>
        match tok with
        | .Add | .Sub | .Mul | .Div =>
          let new_precedence := get_precedence tok
          if new_precedence.ltb prec then
            match node with
            | none => get_operand_node s
            | some nd => .ok nd s
          else
            match (match node with
                   | none => get_operand_node s
                   | some nd => .ok nd s) with
            | .ok nd s1 =>
              let s2 := Parser.step s1
              match parseGo fuel new_precedence none s2 with
              | .ok rhs s3 =>
                match get_binary_node tok nd rhs with
                | .ok bin => parseGo fuel prec (some bin) s3
                | .error e => .err e
              | other => other
            | other => other
        | .LParen =>
          match Parser.incr_leading s with
          | .error e => .err e
          | .ok s1 =>
            match parseGo fuel .Lowest none s1 with
            | .ok nd s2 => parseGo fuel prec (some nd) s2
            | other => other
        | .RParen =>
          match (match node with
                 | none => get_operand_node s
                 | some nd => .ok nd s) with
          | .ok nd s1 =>
            match Parser.incr_leading s1 with
            | .error e => .err e
            | .ok s2 => .ok nd s2
          | other => other
        | .Assignment =>
          match s.tokens.get? s.l with
          | none => .panics
          | some ltok =>
            let identifier := identLiteral ltok
            let s1 := Parser.step s
            match parseGo fuel .Lowest none s1 with
            | .ok expr s2 => .ok (.AssignmentStmt identifier expr) s2
            | other => other
        | _ =>
          match Parser.incr_leading s with
          | .error e => .err e
          | .ok s1 => parseGo fuel prec node s1
    else
      match node with
      | none => get_operand_node s
      | some nd => .ok nd s

/-- A full parse: `Parser::new` followed by `parser.parse(prec)`. -/
def Parser.parse (fuel : Nat) (prec : Precedence) (tokens : List PToken) :
    PRes Node :=
  parseGo fuel prec none (Parser.new tokens)

/-- Parse a token vector at `Precedence::Lowest` and render the resulting
tree; `none` when parsing fails in any way. -/
def parseRender (fuel : Nat) (tokens : List PToken) : Option String :=
  match Parser.parse fuel .Lowest tokens with
  | .ok nd _ => Node.repr nd
  | _ => none

/-! Helper lemmas about byte lengths and list splitting, used by the
lexer-partition development. -/

theorem strBytes_nil : strBytes [] = 0 := rfl

theorem strBytes_cons (c : Char) (cs : List Char) :
    strBytes (c :: cs) = utf8Len c + strBytes cs := by
  simp [strBytes]

theorem strBytes_one (c : Char) : strBytes [c] = utf8Len c := by
  simp [strBytes]

theorem utf8Len_pos (c : Char) : 0 < utf8Len c :=
  Char.utf8Size_pos c

theorem drop_length_takeWhile (p : Char → Bool) (l : List Char) :
    l.drop (l.takeWhile p).length = l.dropWhile p := by
  induction l with
  | nil => rfl
  | cons c cs ih =>
    by_cases h : p c
    · simp [List.takeWhile_cons, List.dropWhile_cons, h, ih]
    · simp [List.takeWhile_cons, List.dropWhile_cons, h]

theorem findChar_take (t : Char) (cs : List Char) (i : Nat)
    (h : findChar t cs = some i) : cs.take (i + 1) = cs.take i ++ [t] := by
  induction cs generalizing i with
  | nil => simp [findChar] at h
  | cons c cs ih =>
    rw [findChar] at h
    by_cases hc : c = t
    · rw [if_pos hc] at h
      injection h with h
      subst h
      simp [hc]
    · rw [if_neg hc] at h
      cases hfc : findChar t cs with
      | none => rw [hfc] at h; simp at h
      | some j =>
        rw [hfc] at h
        simp only [Option.map_some'] at h
        injection h with h
        subst h
        simp [List.take_succ_cons, ih j hfc]

theorem skipSpaces_eq (src : List Char) (rest : List Char) (b : Nat) :
    skipSpaces src rest b =
      ⟨src, rest.dropWhile (fun c => c == ' '),
        b + strBytes (rest.takeWhile (fun c => c == ' '))⟩ := by
  induction rest generalizing b with
  | nil => rfl
  | cons c cs ih =>
    rw [skipSpaces]
    by_cases h : c = ' '
    · rw [if_pos h, ih]
      simp only [List.takeWhile_cons, List.dropWhile_cons, h]
      simp [strBytes_cons, Nat.add_assoc]
    · rw [if_neg h]
      simp only [List.takeWhile_cons, List.dropWhile_cons]
      simp [h, strBytes]

theorem ifEqualElse_ok {src : List Char} {c_at byte1 : Nat} {rest1 : List Char}
    {no yes : Token} {a : Nat} {t : Token} {st' : LexerState}
    (h : ifEqualElse src c_at byte1 rest1 no yes = .ok a t st') :
    a = c_at ∧ st'.src = src ∧
    ((st'.rest = rest1 ∧ st'.byte = byte1) ∨
      (∃ cs2, rest1 = '=' :: cs2 ∧ st'.rest = cs2 ∧ st'.byte = byte1 + 1)) := by
  rw [ifEqualElse] at h
  by_cases hs : startsWithEq rest1
  · rw [if_pos hs] at h
    injection h with h1 h2 h3
    subst h3
    cases rest1 with
    | nil => simp [startsWithEq] at hs
    | cons c2 cs2 =>
      simp only [startsWithEq, decide_eq_true_eq] at hs
      subst hs
      exact ⟨h1.symm, rfl, Or.inr ⟨cs2, rfl, rfl, rfl⟩⟩
  · rw [if_neg hs] at h
    injection h with h1 h2 h3
    subst h3
    exact ⟨h1.symm, rfl, Or.inl ⟨rfl, rfl⟩⟩

theorem classify_numeric {c : Char} (h : classify c = .Numeric) :
    c.isDigit = true := by
  rw [classify] at h
  split_ifs at h
  all_goals simp_all

theorem classify_identif {c : Char} (h : classify c = .Ident) :
    rustIsAlphabetic c = true := by
  rw [classify] at h
  split_ifs at h
  all_goals simp_all

theorem takeWhile_cons_pos (p : Char → Bool) (a : Char) (l : List Char)
    (h : p a = true) : (a :: l).takeWhile p = a :: l.takeWhile p :=
  List.takeWhile_cons_of_pos h

theorem dispatch_op_span {src : List Char} {b : Nat} {c : Char} {cs : List Char}
    {no yes : Token} {a : Nat} {t : Token} {st' : LexerState}
    (h : ifEqualElse src b (b + utf8Len c) cs no yes = .ok a t st') :
    a = b ∧ st'.src = src ∧
    ∃ span, span ≠ [] ∧ c :: cs = span ++ st'.rest ∧
      st'.byte = b + strBytes span := by
  obtain ⟨ha, hsrc, hc⟩ := ifEqualElse_ok h
  rcases hc with ⟨hr, hb⟩ | ⟨cs2, hcs, hr, hb⟩
  · exact ⟨ha, hsrc, [c], by simp, by simp [hr], by rw [hb]; simp [strBytes_one]⟩
  · subst hcs
    refine ⟨ha, hsrc, [c, '='], by simp, by simp [hr], ?_⟩
    rw [hb]
    simp only [strBytes_cons, strBytes_nil, show utf8Len '=' = 1 from rfl]
    omega

theorem dispatch_ok_span {src : List Char} {b : Nat} {c : Char} {cs : List Char}
    {a : Nat} {t : Token} {st' : LexerState}
    (h : dispatch src b c cs = .ok a t st') :
    a = b ∧ st'.src = src ∧
    ∃ span, span ≠ [] ∧ c :: cs = span ++ st'.rest ∧
      st'.byte = b + strBytes span := by
  rw [dispatch] at h
  cases hcl : classify c with
  | Immediate t0 =>
    rw [hcl] at h
    dsimp only at h
    injection h with ha ht hst
    subst hst
    exact ⟨ha.symm, rfl, [c], by simp, by simp, by simp [strBytes_one]⟩
  | IfEqualElse no yes =>
    rw [hcl] at h
    dsimp only at h
    exact dispatch_op_span h
  | Str =>
    rw [hcl] at h
    dsimp only at h
    cases hfc : findChar '"' cs with
    | none => rw [hfc] at h; simp at h
    | some i =>
      rw [hfc] at h
      dsimp only at h
      injection h with ha ht hst
      subst hst
      refine ⟨ha.symm, rfl, c :: cs.take (i + 1), by simp, ?_, ?_⟩
      · simp
      · simp only [strBytes_cons]
        omega
  | Numeric =>
    rw [hcl] at h
    dsimp only at h
    cases hp : parseI32 ((c :: cs).takeWhile fun ch => rustIsNumeric ch || ch == '_') with
    | none => rw [hp] at h; simp at h
    | some n =>
      rw [hp] at h
      dsimp only at h
      injection h with ha ht hst
      subst hst
      have hpc : (rustIsNumeric c || c == '_') = true := by
        simp [rustIsNumeric, classify_numeric hcl]
      have htw := takeWhile_cons_pos (fun ch => rustIsNumeric ch || ch == '_') c cs hpc
      refine ⟨ha.symm, rfl,
        (c :: cs).takeWhile (fun ch => rustIsNumeric ch || ch == '_'), ?_, ?_, ?_⟩
      · rw [htw]
        simp
      · rw [htw]
        simp only [List.length_cons, Nat.add_sub_cancel]
        rw [drop_length_takeWhile]
        simp [List.takeWhile_append_dropWhile]
      · rw [htw]
        simp only [strBytes_cons]
        omega
  | Ident =>
    rw [hcl] at h
    dsimp only at h
    have hpc : (c == '_' || rustIsAlphanumeric c) = true := by
      have := classify_identif hcl
      simp only [rustIsAlphabetic] at this
      simp [rustIsAlphanumeric, Char.isAlphanum, this]
    injection h with ha ht hst
    subst hst
    have htw := takeWhile_cons_pos (fun ch => ch == '_' || rustIsAlphanumeric ch) c cs hpc
    refine ⟨ha.symm, rfl,
      (c :: cs).takeWhile (fun ch => ch == '_' || rustIsAlphanumeric ch), ?_, ?_, ?_⟩
    · rw [htw]
      simp
    · rw [htw]
      simp only [List.length_cons, Nat.add_sub_cancel]
      rw [drop_length_takeWhile]
      simp [List.takeWhile_append_dropWhile]
    · rw [htw]
      simp only [strBytes_cons]
      omega
  | Unknown =>
    rw [hcl] at h
    simp at h

theorem dispatch_ne_eof {src : List Char} {b : Nat} {c : Char} {cs : List Char}
    {st' : LexerState} : dispatch src b c cs ≠ .eof st' := by
  intro h
  rw [dispatch] at h
  cases hcl : classify c with
  | Immediate t0 =>
    rw [hcl] at h
    simp at h
  | IfEqualElse no yes =>
    rw [hcl] at h
    dsimp only at h
    rw [ifEqualElse] at h
    split_ifs at h
  | Str =>
    rw [hcl] at h
    dsimp only at h
    cases hfc : findChar '"' cs with
    | none => rw [hfc] at h; simp at h
    | some i => rw [hfc] at h; simp at h
  | Numeric =>
    rw [hcl] at h
    dsimp only at h
    cases hp : parseI32 ((c :: cs).takeWhile fun ch => rustIsNumeric ch || ch == '_') with
    | none => rw [hp] at h; simp at h
    | some n => rw [hp] at h; simp at h
  | Ident =>
    rw [hcl] at h
    simp at h
  | Unknown =>
    rw [hcl] at h
    simp at h

theorem dispatch_unknown {src : List Char} {b : Nat} {c : Char} {cs : List Char}
    {ix : Nat} {ed : Option Nat} {st' : LexerState}
    (h : dispatch src b c cs = .err (.UnknownToken ix ed) st') :
    ix = b ∧ ed = none ∧ st' = ⟨src, cs, b + utf8Len c⟩ := by
  rw [dispatch] at h
  cases hcl : classify c with
  | Immediate t0 =>
    rw [hcl] at h
    simp at h
  | IfEqualElse no yes =>
    rw [hcl] at h
    dsimp only at h
    rw [ifEqualElse] at h
    split_ifs at h
  | Str =>
    rw [hcl] at h
    dsimp only at h
    cases hfc : findChar '"' cs with
    | none => rw [hfc] at h; simp at h
    | some i => rw [hfc] at h; simp at h
  | Numeric =>
    rw [hcl] at h
    dsimp only at h
    cases hp : parseI32 ((c :: cs).takeWhile fun ch => rustIsNumeric ch || ch == '_') with
    | none => rw [hp] at h; simp at h
    | some n => rw [hp] at h; simp at h
  | Ident =>
    rw [hcl] at h
    simp at h
  | Unknown =>
    rw [hcl] at h
    dsimp only at h
    injection h with he hst
    injection he with h1 h2
    exact ⟨h1.symm, h2.symm, hst.symm⟩

theorem next_ok_span {st : LexerState} {a : Nat} {t : Token} {st' : LexerState}
    (h : next st = .ok a t st') :
    st'.src = st.src ∧
    ∃ sp span, (∀ x ∈ sp, x = ' ') ∧ span ≠ [] ∧
      st.rest = sp ++ (span ++ st'.rest) ∧
      a = st.byte + strBytes sp ∧ st'.byte = a + strBytes span := by
  rw [next, skipSpaces_eq] at h
  cases hd : st.rest.dropWhile (fun c => c == ' ') with
  | nil =>
    rw [hd] at h
    simp at h
  | cons c cs =>
    rw [hd] at h
    dsimp only at h
    obtain ⟨ha, hsrc, span, hne, hspan, hbyte⟩ := dispatch_ok_span h
    have hsplit : st.rest =
        st.rest.takeWhile (fun c => c == ' ') ++
          st.rest.dropWhile (fun c => c == ' ') :=
      (List.takeWhile_append_dropWhile (fun c => c == ' ') st.rest).symm
    refine ⟨hsrc, st.rest.takeWhile (fun c => c == ' '), span, ?_, hne, ?_, ?_, ?_⟩
    · intro x hx
      have := List.mem_takeWhile_imp hx
      simpa using this
    · calc st.rest
          = st.rest.takeWhile (fun c => c == ' ') ++
              st.rest.dropWhile (fun c => c == ' ') := hsplit
        _ = st.rest.takeWhile (fun c => c == ' ') ++ (span ++ st'.rest) := by
            rw [hd, hspan]
    · omega
    · omega

theorem next_eof_spaces {st st' : LexerState} (h : next st = .eof st') :
    st'.src = st.src ∧ st'.rest = [] ∧ ∀ x ∈ st.rest, x = ' ' := by
  rw [next, skipSpaces_eq] at h
  cases hd : st.rest.dropWhile (fun c => c == ' ') with
  | nil =>
    rw [hd] at h
    dsimp only at h
    injection h with hst
    subst hst
    refine ⟨rfl, rfl, ?_⟩
    intro x hx
    have := (List.dropWhile_eq_nil_iff).mp hd x hx
    simpa using this
  | cons c cs =>
    rw [hd] at h
    dsimp only at h
    exact absurd h dispatch_ne_eof

/-- The spanned tokens `toks` tile the character sequence starting at byte
position `b`: before each token's span lie only U+0020 spaces, each span is
non-empty, each recorded offset is the byte position of the first non-space
character of its span, consecutive spans are adjacent (no gap, no overlap),
and after the last span only spaces remain. -/
inductive Tiles : Nat → List Char → List (Nat × Token) → Prop where
  | nil (b : Nat) (sp : List Char) (hsp : ∀ c ∈ sp, c = ' ') : Tiles b sp []
  | cons (b : Nat) (sp span rest : List Char) (t : Token)
      (toks : List (Nat × Token))
      (hsp : ∀ c ∈ sp, c = ' ') (hne : span ≠ [])
      (htl : Tiles (b + strBytes sp + strBytes span) rest toks) :
      Tiles b (sp ++ (span ++ rest)) ((b + strBytes sp, t) :: toks)

theorem runLex_tiles (fuel : Nat) :
    ∀ (st : LexerState) (toks : List (Nat × Token)) (stf : LexerState),
      runLex fuel st = some (toks, stf) → Tiles st.byte st.rest toks := by
  induction fuel with
  | zero =>
    intro st toks stf h
    simp [runLex] at h
  | succ n ih =>
    intro st toks stf h
    rw [runLex] at h
    cases hn : next st with
    | eof st1 =>
      rw [hn] at h
      dsimp only at h
      injection h with h
      injection h with h1 h2
      subst h1
      obtain ⟨-, -, hsp⟩ := next_eof_spaces hn
      exact Tiles.nil st.byte st.rest hsp
    | ok a t st1 =>
      rw [hn] at h
      dsimp only at h
      cases hr : runLex n st1 with
      | none => rw [hr] at h; simp at h
      | some p =>
        obtain ⟨toks1, stf1⟩ := p
        rw [hr] at h
        dsimp only at h
        injection h with h
        injection h with h1 h2
        subst h1
        obtain ⟨hsrc, sp, span, hsp, hne, hrest, ha, hb⟩ := next_ok_span hn
        have htl := ih st1 toks1 stf1 hr
        subst ha
        rw [hrest]
        have hbyte : st.byte + strBytes sp + strBytes span = st1.byte := by omega
        exact Tiles.cons st.byte sp span st1.rest t toks1 hsp hne (hbyte ▸ htl)
    | err e st1 =>
      rw [hn] at h
      simp at h
    | panics =>
      rw [hn] at h
      simp at h

theorem strBytes_append (a b : List Char) :
    strBytes (a ++ b) = strBytes a + strBytes b := by
  simp [strBytes]

/-! Well-indented trees: every conditional in the tree whose fail-block is
present has that block's `indent` at least 1.  This is exactly the
precondition under which the rendering of src/ast.rs cannot hit the
`usize` underflow of `ConditionalStmt::repr`. -/
mutual
def Node.goodIndents : Node → Bool
  | .IntegerNode _ => true
  | .BinaryExpr _ l r => l.goodIndents && r.goodIndents
  | .Identifier _ => true
  | .CallStmt _ args => goodIndentsList args
  | .ConditionalStmt cond pass fb =>
      cond.goodIndents && pass.goodIndents &&
        (match fb with
         | none => true
         | some f => (decide (f.indentOf ≠ 0)) && f.goodIndents)
  | .ReturnStmt e => e.goodIndents
  | .AssignmentStmt _ e => e.goodIndents
  | .Block b => b.goodIndents
  | .FnLiteral _ _ d => d.goodIndents

def BlockStmt.goodIndents : BlockStmt → Bool
  | .mk _ stmts => goodIndentsList stmts

def goodIndentsList : List Node → Bool
  | [] => true
  | n :: ns => n.goodIndents && goodIndentsList ns
end

/-! Rendering succeeds on every well-indented tree; proved mutually with
the corresponding facts for blocks and statement lists. -/
mutual
theorem node_repr_isSome : ∀ n : Node, Node.goodIndents n = true →
    (Node.repr n).isSome = true
  | .IntegerNode v, _ => by simp [Node.repr]
  | .BinaryExpr op l r, h => by
    rw [Node.goodIndents, Bool.and_eq_true] at h
    obtain ⟨ls, hls⟩ := Option.isSome_iff_exists.mp (node_repr_isSome l h.1)
    obtain ⟨rs, hrs⟩ := Option.isSome_iff_exists.mp (node_repr_isSome r h.2)
    simp [Node.repr, hls, hrs]
  | .Identifier lit, _ => by simp [Node.repr]
  | .CallStmt name args, h => by
    rw [Node.goodIndents] at h
    obtain ⟨rs, hrs⟩ := Option.isSome_iff_exists.mp (reprList_isSome args h)
    simp [Node.repr, hrs]
  | .ConditionalStmt cond pass fb, h => by
    cases fb with
    | none =>
      simp only [Node.goodIndents, Bool.and_eq_true] at h
      obtain ⟨⟨hc, hp⟩, -⟩ := h
      obtain ⟨cr, hcr⟩ := Option.isSome_iff_exists.mp (node_repr_isSome cond hc)
      obtain ⟨pr, hpr⟩ := Option.isSome_iff_exists.mp (block_repr_isSome pass hp)
      simp [Node.repr, hcr, hpr]
    | some f =>
      simp only [Node.goodIndents, Bool.and_eq_true, decide_eq_true_eq] at h
      obtain ⟨⟨hc, hp⟩, hf0, hfg⟩ := h
      obtain ⟨cr, hcr⟩ := Option.isSome_iff_exists.mp (node_repr_isSome cond hc)
      obtain ⟨pr, hpr⟩ := Option.isSome_iff_exists.mp (block_repr_isSome pass hp)
      obtain ⟨fr, hfr⟩ := Option.isSome_iff_exists.mp (block_repr_isSome f hfg)
      simp [Node.repr, hcr, hpr, hfr, hf0]
  | .ReturnStmt e, h => by
    rw [Node.goodIndents] at h
    obtain ⟨er, her⟩ := Option.isSome_iff_exists.mp (node_repr_isSome e h)
    simp [Node.repr, her]
  | .AssignmentStmt idf e, h => by
    rw [Node.goodIndents] at h
    obtain ⟨er, her⟩ := Option.isSome_iff_exists.mp (node_repr_isSome e h)
    simp [Node.repr, her]
  | .Block b, h => by
    rw [Node.goodIndents] at h
    obtain ⟨br, hbr⟩ := Option.isSome_iff_exists.mp (block_repr_isSome b h)
    simp [Node.repr, hbr]
  | .FnLiteral name args d, h => by
    rw [Node.goodIndents] at h
    obtain ⟨dr, hdr⟩ := Option.isSome_iff_exists.mp (block_repr_isSome d h)
    simp [Node.repr, hdr]

theorem block_repr_isSome : ∀ b : BlockStmt, BlockStmt.goodIndents b = true →
    (BlockStmt.repr b).isSome = true
  | .mk i stmts, h => by
    rw [BlockStmt.goodIndents] at h
    obtain ⟨rs, hrs⟩ := Option.isSome_iff_exists.mp (reprList_isSome stmts h)
    simp [BlockStmt.repr, hrs]

theorem reprList_isSome : ∀ l : List Node, goodIndentsList l = true →
    (reprList l).isSome = true
  | [], _ => by simp [reprList]
  | n :: ns, h => by
    rw [goodIndentsList, Bool.and_eq_true] at h
    obtain ⟨r, hr⟩ := Option.isSome_iff_exists.mp (node_repr_isSome n h.1)
    obtain ⟨rs, hrs⟩ := Option.isSome_iff_exists.mp (reprList_isSome ns h.2)
    simp [reprList, hr, hrs]
end

/-! Claim theorems.  Each doc comment names the claim of CLAIMS.json the
theorem settles. -/

/-- C1 (counterexample): the claim predicts that parsing `"1 - 2 - 3"`
produces a tree rendering as `"((1 - 2) - 3)"`; on the embedded parser the
token vector of that source renders as `"(1 - (2 - 3))"`, so the claim as
stated is false. -/
theorem c1_left_assoc_counterexample :
    parseRender 100 [.Int "1", .Sub, .Int "2", .Sub, .Int "3"] ≠
      some "((1 - 2) - 3)" := by
  have h : parseRender 100 [.Int "1", .Sub, .Int "2", .Sub, .Int "3"] =
      some "(1 - (2 - 3))" := rfl
  rw [h]
  decide

/-- C1 (amended): parsing the tokens of `"1 - 2 - 3"` produces a tree that
renders as `"(1 - (2 - 3))"`: an equal-precedence operator reached in the
recursive right-hand-side call is not strictly below that call's minimum
precedence, so the inner call consumes it and equal-precedence chains
group right-associatively. -/
theorem c1_subtraction_chain_right_assoc :
    parseRender 100 [.Int "1", .Sub, .Int "2", .Sub, .Int "3"] =
      some "(1 - (2 - 3))" := rfl

/-- C2 (code bug): on the token vector of `"1 +"` the parser does not
return the reached-end parse error.  The recursive call made after
consuming the operator runs out of tokens and calls `get_operand_node`
with the trailing cursor at the token count; `self.tokens[self.l]` then
indexes past the end of the `Vec` and panics.  The embedding evaluates to
the panic outcome. -/
theorem c2_dangling_operator_panics :
    Parser.parse 100 .Lowest [.Int "1", .Add] = .panics := rfl

/-- C3 (code bug): a digit run that does not parse as a 32-bit signed
integer is not reported as a lexical error: the numeric branch of
`Lexer::next` calls `.expect("Should have checked")` on the failed parse
and panics (aborts).  Here the lexer is evaluated on the digit run
`"2147483648"`, one past `i32::MAX`. -/
theorem c3_numeric_overflow_panics :
    next (Lexer.new ['2', '1', '4', '7', '4', '8', '3', '6', '4', '8']) =
      .panics := rfl

/-- C4: parsing the tokens of `"1 + 2 * 3"` produces a tree rendering as
`"(1 + (2 * 3))"` — the higher-precedence `*` encountered while parsing
the right-hand side of `+` is consumed by the inner recursive call — and
parsing the tokens of `"2 * 3 + 4"` produces `"((2 * 3) + 4)"` — the
lower-precedence `+` makes the inner call return without consuming it. -/
theorem c4_mul_binds_tighter_than_add :
    parseRender 100 [.Int "1", .Add, .Int "2", .Mul, .Int "3"] =
      some "(1 + (2 * 3))" ∧
    parseRender 100 [.Int "2", .Mul, .Int "3", .Add, .Int "4"] =
      some "((2 * 3) + 4)" := ⟨rfl, rfl⟩

/-- C5 (counterexample): the claim says the scan stops at the next
UNESCAPED double quote.  On the source `"a\"b"` (the six characters
quote, a, backslash, quote, b, quote) the next unescaped quote is the
final one, so the claim predicts a literal spanning to it; the code stops
at the backslash-preceded quote and emits the two characters before it,
leaving the rest unconsumed. -/
theorem c5_escaped_quote_counterexample :
    next (Lexer.new ['"', 'a', '\\', '"', 'b', '"']) =
      .ok 0 (.StrLiteral ['a', '\\'])
        ⟨['"', 'a', '\\', '"', 'b', '"'], ['b', '"'], 4⟩ ∧
    (['a', '\\'] : List Char) ≠ ['a', '\\', '"', 'b'] := ⟨rfl, by decide⟩

/-- C5 (amended): when the lexer dispatches on an opening double quote at
byte offset `b`, it scans for the next double quote with no escape
handling: if one exists, the emitted string-literal token holds exactly
the text strictly between the opening quote and that next quote and the
position advances just past it; otherwise the call fails with the
unterminated-string error carrying the opening quote's offset. -/
theorem c5_string_scan (src : List Char) (b : Nat) (cs : List Char) :
    dispatch src b '"' cs =
      match findChar '"' cs with
      | some i =>
        .ok b (.StrLiteral (cs.take i))
          ⟨src, cs.drop (i + 1), b + 2 + strBytes (cs.take i)⟩
      | none => .err (.UnterminatedString b) ⟨src, cs, b + 1⟩ := by
  rw [dispatch, show classify '"' = Started.Str from rfl]
  dsimp only
  cases hfc : findChar '"' cs with
  | none => rfl
  | some i =>
    have ht := findChar_take '"' cs i hfc
    have hb : strBytes ('"' :: cs.take (i + 1)) = strBytes (cs.take i) + 2 := by
      rw [strBytes_cons, ht, strBytes_append, strBytes_one]
      simp only [show utf8Len '"' = 1 from rfl]
      omega
    dsimp only
    simp only [NextResult.ok.injEq, LexerState.mk.injEq, true_and]
    rw [hb, show utf8Len '"' = 1 from rfl]
    omega

/-- C6: for every source string on which the lexer runs to completion with
no lexical error (and no panic), the emitted spanned tokens tile the input
exactly: each recorded offset is the byte position of the first non-space
character of its span, each span is non-empty, consecutive spans are
separated only by skipped U+0020 spaces, and only spaces follow the last
span — the lexer partitions its input with no gaps or overlaps, each call
resuming exactly where the previous one left off. -/
theorem c6_lexer_partitions_input (fuel : Nat) (src : List Char)
    (toks : List (Nat × Token)) (stf : LexerState)
    (h : runLex fuel (Lexer.new src) = some (toks, stf)) :
    Tiles 0 src toks :=
  runLex_tiles fuel (Lexer.new src) toks stf h

theorem c6_lexer_partitions_witness :
    Tiles 0 ['1', ' ', '+', ' ', '2']
      [(0, .IntLiteral 1), (2, .Add), (4, .IntLiteral 2)] :=
  c6_lexer_partitions_input 10 ['1', ' ', '+', ' ', '2']
    [(0, .IntLiteral 1), (2, .Add), (4, .IntLiteral 2)]
    ⟨['1', ' ', '+', ' ', '2'], [], 5⟩ rfl

/-- C7 (code bug): the round-trip claim covers digit runs with optional
underscores, but `str::parse::<i32>` rejects underscores, so on the
literal `"1_0"` the numeric branch's `.expect("Should have checked")`
panics instead of producing a token whose rendering could be compared. -/
theorem c7_underscore_literal_panics :
    next (Lexer.new ['1', '_', '0']) = .panics := rfl

/-- C8: for every AST node of every variant, the evaluate operation is the
identity — `eval` returns the node unchanged, a no-op placeholder rather
than a reduction step. -/
theorem c8_eval_is_identity : ∀ n : Node, Node.eval n = n := by
  intro n
  cases n
  all_goals rfl

/-- C9 (counterexample): the claim says repr succeeds for every
conditional whose own present fail-block has `indent_level` at least 1.
Here the outer conditional's fail-block has indent 1, yet its pass-block
contains a nested conditional whose fail-block has indent 0, so rendering
still hits the `usize` underflow and fails. -/
theorem c9_nested_indent_counterexample :
    BlockStmt.indentOf (.mk 1 []) = 1 ∧
    Node.repr
      (.ConditionalStmt (.Identifier "c")
        (.mk 1 [.ConditionalStmt (.Identifier "d") (.mk 2 [])
          (some (.mk 0 []))])
        (some (.mk 1 []))) = none := ⟨rfl, rfl⟩

/-- C9 (amended): rendering a tree is total exactly under the unstated
precondition that every conditional in it with a present fail-block has
that block's `indent_level` at least 1: under that precondition repr
succeeds, while any conditional whose present fail-block has
`indent_level` 0 renders to the panic outcome (the else-header indentation
`indent - 1` underflows on an unsigned integer). -/
theorem c9_repr_totality :
    (∀ n : Node, Node.goodIndents n = true → (Node.repr n).isSome = true) ∧
    (∀ (cond : Node) (pass : BlockStmt) (stmts : List Node),
      Node.repr (.ConditionalStmt cond pass (some (.mk 0 stmts))) = none) := by
  refine ⟨node_repr_isSome, ?_⟩
  intro cond pass stmts
  rfl

theorem c9_repr_totality_witness :
    (Node.repr (.ConditionalStmt (.Identifier "c") (.mk 1 [])
      (some (.mk 1 [])))).isSome = true ∧
    Node.repr (.ConditionalStmt (.Identifier "c") (.mk 1 [])
      (some (.mk 0 []))) = none :=
  ⟨c9_repr_totality.1
      (.ConditionalStmt (.Identifier "c") (.mk 1 []) (some (.mk 1 []))) rfl,
    c9_repr_totality.2 (.Identifier "c") (.mk 1 []) []⟩

/-- C10: the lexer does not stop at the first error.  When `next` returns
the unknown-token error, the internal position has already advanced one
character past the offending one (with only skipped spaces between the old
position and the recorded offset), and — as the concrete run on `"@1"`
shows — the following call resumes right there and can emit further
tokens. -/
theorem c10_lexer_resumes_after_unknown_token :
    (∀ (st : LexerState) (ix : Nat) (ed : Option Nat) (st' : LexerState),
      next st = .err (.UnknownToken ix ed) st' →
      st'.src = st.src ∧ ed = none ∧
      ∃ sp c, (∀ x ∈ sp, x = ' ') ∧ st.rest = sp ++ c :: st'.rest ∧
        ix = st.byte + strBytes sp ∧ st'.byte = ix + utf8Len c) ∧
    next (Lexer.new ['@', '1']) =
      .err (.UnknownToken 0 none) ⟨['@', '1'], ['1'], 1⟩ ∧
    next ⟨['@', '1'], ['1'], 1⟩ =
      .ok 1 (.IntLiteral 1) ⟨['@', '1'], [], 2⟩ := by
  refine ⟨?_, rfl, rfl⟩
  intro st ix ed st' h
  rw [next, skipSpaces_eq] at h
  cases hd : st.rest.dropWhile (fun c => c == ' ') with
  | nil =>
    rw [hd] at h
    simp at h
  | cons c cs =>
    rw [hd] at h
    dsimp only at h
    obtain ⟨hix, hed, hst⟩ := dispatch_unknown h
    subst hst
    refine ⟨rfl, hed, st.rest.takeWhile (fun c => c == ' '), c, ?_, ?_, ?_, ?_⟩
    · intro x hx
      have := List.mem_takeWhile_imp hx
      simpa using this
    · calc st.rest
          = st.rest.takeWhile (fun c => c == ' ') ++
              st.rest.dropWhile (fun c => c == ' ') :=
            (List.takeWhile_append_dropWhile (fun c => c == ' ') st.rest).symm
        _ = st.rest.takeWhile (fun c => c == ' ') ++ (c :: cs) := by rw [hd]
    · omega
    · simp only [hix]

theorem c10_lexer_resumes_witness :
    (⟨['@', '1'], ['1'], 1⟩ : LexerState).src = (Lexer.new ['@', '1']).src ∧
    (none : Option Nat) = none ∧
    ∃ sp c, (∀ x ∈ sp, x = ' ') ∧
      (Lexer.new ['@', '1']).rest =
        sp ++ c :: (⟨['@', '1'], ['1'], 1⟩ : LexerState).rest ∧
      0 = (Lexer.new ['@', '1']).byte + strBytes sp ∧
      (⟨['@', '1'], ['1'], 1⟩ : LexerState).byte = 0 + utf8Len c :=
  c10_lexer_resumes_after_unknown_token.1 (Lexer.new ['@', '1']) 0 none
    ⟨['@', '1'], ['1'], 1⟩ rfl

end Funpy
